import Mathlib

/-!
Shallow embedding of the gem5 SLRU replacement policy (`slru_rp.cc`,
`slru_rp.hh`, and the strict `getVictim` variant found alongside the
batch script), together with proofs of the specified properties.

Modelling conventions:
* Entry identity (the C++ `shared_ptr<ReplacementData>` identity) is a `Nat`.
  The heap of per-entry data is a total map `Nat → SLRUReplData`; an entry
  that has never been instantiated carries the constructor's initial value
  `⟨Probation, 0⟩`, exactly what `SLRUReplData()` produces, so
  `instantiateEntry` needs no state change in the model.
* `Tick` is gem5's `uint64_t`; tick values are `Nat` and the sentinel
  `std::numeric_limits<Tick>::max()` is `tickMax = 2 ^ 64 - 1`.
* `protectedEntries`, `protectedSize`, `probationSize` are C++ `unsigned`
  (32-bit); increment and decrement of the counter are taken mod `2 ^ 32`.
* `curTick()` is passed in as an explicit `now : Nat` argument.
* Code paths that abort (failed `assert`) or are undefined (dereferencing
  `begin()` of an empty vector in `touch`) return `none`.
-/

/-- Segment tag of an entry, `SLRUReplData::Segment`. -/
inductive Segment where
  | Probation
  | Protected
deriving DecidableEq, Repr

/-- Per-entry replacement data: `segment` and `lastTouch`, as in
`SLRUReplData`. -/
structure SLRUReplData where
  segment : Segment
  lastTouch : Nat
deriving DecidableEq, Repr

/-- The value built by the default constructor `SLRUReplData()`:
probationary, last touch `Tick(0)`. -/
def SLRU.instantiateEntry : SLRUReplData := ⟨Segment.Probation, 0⟩

/-- Policy state: the configured sizes, the protected-entry counter, the
`protectedList` of entry identities, and the heap of entry data. -/
structure SLRUState where
  protectedSize : Nat
  probationSize : Nat
  protectedEntries : Nat
  protectedList : List Nat
  entries : Nat → SLRUReplData

/-- The largest `Tick` value, `std::numeric_limits<Tick>::max()` for
`Tick = uint64_t`. -/
def tickMax : Nat := 2 ^ 64 - 1

/-- Increment of a C++ `unsigned` (32-bit) counter. -/
def inc32 (n : Nat) : Nat := (n + 1) % 2 ^ 32

/-- Decrement of a C++ `unsigned` (32-bit) counter, wrapping at zero. -/
def dec32 (n : Nat) : Nat := (n + (2 ^ 32 - 1)) % 2 ^ 32

/-- Pointwise update of the entry heap at one identity. -/
def updE (E : Nat → SLRUReplData) (i : Nat) (d : SLRUReplData) :
    Nat → SLRUReplData :=
  fun j => if j = i then d else E j

/-- State built by the constructor `SLRU::SLRU(p)`: sizes from the params,
`protectedEntries = 0`, empty `protectedList`, and every entry at its
`SLRUReplData()` initial value. -/
def SLRU.init (psize qsize : Nat) : SLRUState :=
  ⟨psize, qsize, 0, [], fun _ => SLRU.instantiateEntry⟩

/-- Embedding of `SLRU::invalidate`: if the entry is marked `Protected` and
is found in `protectedList`, erase its first occurrence and decrement the
counter; then set the entry to `⟨Probation, Tick(0)⟩`. -/
def SLRU.invalidate (s : SLRUState) (i : Nat) : SLRUState :=
  let s1 :=
    if (s.entries i).segment = Segment.Protected then
      if i ∈ s.protectedList then
        { s with protectedList := s.protectedList.erase i,
                 protectedEntries := dec32 s.protectedEntries }
      else s
    else s
  { s1 with entries := updE s1.entries i ⟨Segment.Probation, 0⟩ }

/-- Embedding of `SLRU::reset`: identical bookkeeping to `invalidate`, but
the entry's `lastTouch` becomes the current tick `now` instead of 0. -/
def SLRU.reset (s : SLRUState) (i : Nat) (now : Nat) : SLRUState :=
  let s1 :=
    if (s.entries i).segment = Segment.Protected then
      if i ∈ s.protectedList then
        { s with protectedList := s.protectedList.erase i,
                 protectedEntries := dec32 s.protectedEntries }
      else s
    else s
  { s1 with entries := updE s1.entries i ⟨Segment.Probation, now⟩ }

/-- The LRU scan of `SLRU::touch`'s full-protected branch: walk the list
keeping the position and tick of the least `lastTouch` seen so far
(strict `<`, so the first minimum wins); `idx` is the position of the list
head within the full `protectedList`. -/
def lruLoop (E : Nat → SLRUReplData) :
    List Nat → Nat → Nat × Nat → Nat × Nat
  | [], _, st => st
  | c :: cs, idx, st =>
    if (E c).lastTouch < st.2 then lruLoop E cs (idx + 1) (idx, (E c).lastTouch)
    else lruLoop E cs (idx + 1) st

/-- Embedding of `SLRU::touch`.  On a probationary entry: promote if there
is spare protected capacity, otherwise demote the protected LRU member
(erasing it at its iterator position) and promote the touched entry; a
protected entry is left in place.  In every case `lastTouch := now` at the
end.  `none` models the undefined dereference of `begin()` when the
full-protected branch runs on an empty `protectedList`. -/
def SLRU.touch (s : SLRUState) (i : Nat) (now : Nat) : Option SLRUState :=
  let step :=
    if (s.entries i).segment = Segment.Probation then
      if s.protectedEntries < s.protectedSize then
        some { s with
                entries := updE s.entries i
                  ⟨Segment.Protected, (s.entries i).lastTouch⟩,
                protectedList := s.protectedList ++ [i],
                protectedEntries := inc32 s.protectedEntries }
      else
        match s.protectedList with
        | [] => none
        | h0 :: rest =>
          let r := lruLoop s.entries (h0 :: rest) 0 (0, (s.entries h0).lastTouch)
          let m := (h0 :: rest).getD r.1 0
          let E1 := updE s.entries m ⟨Segment.Probation, (s.entries m).lastTouch⟩
          let E2 := updE E1 i ⟨Segment.Protected, (E1 i).lastTouch⟩
          some { s with
                  entries := E2,
                  protectedList := (h0 :: rest).eraseIdx r.1 ++ [i] }
    else some s
  step.map fun t =>
    { t with entries := updE t.entries i ⟨(t.entries i).segment, now⟩ }

/-- The candidate scan shared by both `getVictim` variants: one pass over
the candidates tracking, with the sentinel `tickMax` as initial minimum,
the oldest probationary candidate `(op, mp)` and the oldest
non-probationary candidate `(ot, mt)`. -/
def victimLoop (E : Nat → SLRUReplData) :
    List Nat → Option Nat → Nat → Option Nat → Nat →
    Option Nat × Nat × Option Nat × Nat
  | [], op, mp, ot, mt => (op, mp, ot, mt)
  | c :: cs, op, mp, ot, mt =>
    if (E c).segment = Segment.Probation then
      if (E c).lastTouch < mp then
        victimLoop E cs (some c) (E c).lastTouch ot mt
      else victimLoop E cs op mp ot mt
    else
      if (E c).lastTouch < mt then
        victimLoop E cs op mp (some c) (E c).lastTouch
      else victimLoop E cs op mp ot mt

/-- Embedding of `SLRU::getVictim` from `slru_rp.cc` (the variant with the
protected fallback).  Returns the chosen victim together with the state
after the call; `none` models a failed assertion (`!candidates.empty()`,
or `oldestProt` null).  On the fallback path the chosen protected entry is
demoted: its data becomes `⟨Probation, now⟩` and, if it is found in
`protectedList`, it is erased and the counter decremented. -/
def SLRU.getVictim (s : SLRUState) (cands : List Nat) (now : Nat) :
    Option (Nat × SLRUState) :=
  if cands = [] then none
  else
    let r := victimLoop s.entries cands none tickMax none tickMax
    match r.1 with
    | some v => some (v, s)
    | none =>
      match r.2.2.1 with
      | none => none
      | some q =>
        let s1 := { s with entries := updE s.entries q ⟨Segment.Probation, now⟩ }
        if q ∈ s1.protectedList then
          some (q, { s1 with protectedList := s1.protectedList.erase q,
                             protectedEntries := dec32 s1.protectedEntries })
        else some (q, s1)

/-- The candidate scan of the strict `getVictim` variant: only the oldest
probationary candidate is tracked. -/
def strictLoop (E : Nat → SLRUReplData) :
    List Nat → Option Nat → Nat → Option Nat × Nat
  | [], op, mp => (op, mp)
  | c :: cs, op, mp =>
    if (E c).segment = Segment.Probation then
      if (E c).lastTouch < mp then strictLoop E cs (some c) (E c).lastTouch
      else strictLoop E cs op mp
    else strictLoop E cs op mp

/-- Embedding of the strict `getVictim` variant (the version kept next to
the batch script): it never falls back to the protected segment and makes
no state change; `none` models a failed assertion (empty candidate list,
or `oldestProb` null). -/
def SLRU.getVictimStrict (s : SLRUState) (cands : List Nat) : Option Nat :=
  if cands = [] then none
  else (strictLoop s.entries cands none tickMax).1

/-! ### Generic analysis of the sentinel-based selection loops -/

/-- Abstract form of the selection loops: scan a list, keeping the last
element satisfying `p` whose key was strictly below the running minimum. -/
def selLoop (key : Nat → Nat) (p : Nat → Prop) [DecidablePred p] :
    List Nat → Option Nat × Nat → Option Nat × Nat
  | [], st => st
  | c :: cs, st =>
    if p c then
      if key c < st.2 then selLoop key p cs (some c, key c)
      else selLoop key p cs st
    else selLoop key p cs st

/-- The probationary track of `strictLoop` is an instance of `selLoop`. -/
lemma strictLoop_eq_selLoop (E : Nat → SLRUReplData) :
    ∀ (cs : List Nat) (op : Option Nat) (mp : Nat),
      strictLoop E cs op mp =
        selLoop (fun c => (E c).lastTouch)
          (fun c => (E c).segment = Segment.Probation) cs (op, mp) := by
  intro cs
  induction cs with
  | nil => intro op mp; rfl
  | cons c cs ih =>
    intro op mp
    simp only [strictLoop, selLoop]
    split
    · split
      · exact ih _ _
      · exact ih _ _
    · exact ih _ _

/-- `victimLoop` runs the probationary and the protected `selLoop`
instances in one pass. -/
lemma victimLoop_eq_selLoop (E : Nat → SLRUReplData) :
    ∀ (cs : List Nat) (op : Option Nat) (mp : Nat) (ot : Option Nat) (mt : Nat),
      victimLoop E cs op mp ot mt =
        ((selLoop (fun c => (E c).lastTouch)
            (fun c => (E c).segment = Segment.Probation) cs (op, mp)).1,
         (selLoop (fun c => (E c).lastTouch)
            (fun c => (E c).segment = Segment.Probation) cs (op, mp)).2,
         selLoop (fun c => (E c).lastTouch)
            (fun c => ¬(E c).segment = Segment.Probation) cs (ot, mt)) := by
  intro cs
  induction cs with
  | nil => intro op mp ot mt; rfl
  | cons c cs ih =>
    intro op mp ot mt
    simp only [victimLoop, selLoop]
    by_cases hc : (E c).segment = Segment.Probation
    · simp only [hc, if_pos, if_neg (by simp [hc] : ¬¬(E c).segment = Segment.Probation)]
      split
      · exact ih _ _ _ _
      · exact ih _ _ _ _
    · simp only [if_neg hc, if_pos hc]
      split
      · exact ih _ _ _ _
      · exact ih _ _ _ _

/-- Main characterisation of `selLoop`: either the accumulator survives
(and then nothing in the list beat its minimum), or the result is the
first element achieving the least key strictly below the initial minimum —
elements of `p` before it have strictly larger keys, elements after it
have keys not smaller. -/
lemma selLoop_main (key : Nat → Nat) (p : Nat → Prop) [DecidablePred p] :
    ∀ (cs : List Nat) (b0 : Option Nat) (m0 : Nat),
      (selLoop key p cs (b0, m0) = (b0, m0) ∧ ∀ c ∈ cs, p c → m0 ≤ key c) ∨
      (∃ v l1 l2,
        (selLoop key p cs (b0, m0)).1 = some v ∧
        (selLoop key p cs (b0, m0)).2 = key v ∧
        p v ∧ key v < m0 ∧ cs = l1 ++ v :: l2 ∧
        (∀ c ∈ l1, p c → key v < key c) ∧
        (∀ c ∈ l2, p c → key v ≤ key c)) := by
  intro cs
  induction cs with
  | nil =>
    intro b0 m0
    exact Or.inl ⟨rfl, by simp⟩
  | cons c cs ih =>
    intro b0 m0
    by_cases hc : p c
    · by_cases hlt : key c < m0
      · -- the head takes over the accumulator
        rcases ih (some c) (key c) with ⟨heq, hmin⟩ | ⟨v, l1, l2, h1, h2, hv, hvm, hsplit, hl1, hl2⟩
        · refine Or.inr ⟨c, [], cs, ?_, ?_, hc, hlt, rfl, by simp, ?_⟩
          · simp [selLoop, hc, hlt, heq]
          · simp [selLoop, hc, hlt, heq]
          · intro x hx hpx
            have := hmin x hx hpx
            omega
        · refine Or.inr ⟨v, c :: l1, l2, ?_, ?_, hv, by omega, by simp [hsplit], ?_, hl2⟩
          · simp [selLoop, hc, hlt, h1]
          · simp [selLoop, hc, hlt, h2]
          · intro x hx hpx
            rcases List.mem_cons.1 hx with rfl | hx
            · omega
            · exact hl1 x hx hpx
      · -- head satisfies p but does not beat the minimum
        rcases ih b0 m0 with ⟨heq, hmin⟩ | ⟨v, l1, l2, h1, h2, hv, hvm, hsplit, hl1, hl2⟩
        · refine Or.inl ⟨by simp [selLoop, hc, hlt, heq], ?_⟩
          intro x hx hpx
          rcases List.mem_cons.1 hx with rfl | hx
          · omega
          · exact hmin x hx hpx
        · refine Or.inr ⟨v, c :: l1, l2, ?_, ?_, hv, hvm, by simp [hsplit], ?_, hl2⟩
          · simp [selLoop, hc, hlt, h1]
          · simp [selLoop, hc, hlt, h2]
          · intro x hx hpx
            rcases List.mem_cons.1 hx with rfl | hx
            · omega
            · exact hl1 x hx hpx
    · -- head does not satisfy p
      rcases ih b0 m0 with ⟨heq, hmin⟩ | ⟨v, l1, l2, h1, h2, hv, hvm, hsplit, hl1, hl2⟩
      · refine Or.inl ⟨by simp [selLoop, hc, heq], ?_⟩
        intro x hx hpx
        rcases List.mem_cons.1 hx with rfl | hx
        · exact absurd hpx hc
        · exact hmin x hx hpx
      · refine Or.inr ⟨v, c :: l1, l2, ?_, ?_, hv, hvm, by simp [hsplit], ?_, hl2⟩
        · simp [selLoop, hc, h1]
        · simp [selLoop, hc, h2]
        · intro x hx hpx
          rcases List.mem_cons.1 hx with rfl | hx
          · exact absurd hpx hc
          · exact hl1 x hx hpx

/-- Started from the sentinel, the loop returns `none` exactly when no
element of `p` has a key below the sentinel. -/
lemma selLoop_none_iff (key : Nat → Nat) (p : Nat → Prop) [DecidablePred p]
    (cs : List Nat) :
    (selLoop key p cs (none, tickMax)).1 = none ↔
      ∀ c ∈ cs, p c → tickMax ≤ key c := by
  constructor
  · intro h
    rcases selLoop_main key p cs none tickMax with ⟨_, hmin⟩ | ⟨v, _, _, h1, _⟩
    · exact hmin
    · rw [h1] at h; cases h
  · intro h
    rcases selLoop_main key p cs none tickMax with ⟨heq, _⟩ | ⟨v, _, _, h1, _, hv, hvm, hsplit, _⟩
    · rw [heq]
    · have hvmem : v ∈ cs := by
        rw [hsplit]; exact List.mem_append.2 (Or.inr (List.mem_cons_self _ _))
      have := h v hvmem hv
      omega

/-- Started from the sentinel, a `some` result is the first element of `p`
achieving the least key, and that key is below the sentinel. -/
lemma selLoop_some_spec (key : Nat → Nat) (p : Nat → Prop) [DecidablePred p]
    (cs : List Nat) (v : Nat)
    (h : (selLoop key p cs (none, tickMax)).1 = some v) :
    p v ∧ key v < tickMax ∧
    (∃ l1 l2, cs = l1 ++ v :: l2 ∧ ∀ c ∈ l1, p c → key v < key c) ∧
    (∀ c ∈ cs, p c → key v ≤ key c) := by
  rcases selLoop_main key p cs none tickMax with ⟨heq, _⟩ | ⟨w, l1, l2, h1, _, hw, hwm, hsplit, hl1, hl2⟩
  · rw [heq] at h; cases h
  · rw [h1] at h
    injection h with h
    subst h
    refine ⟨hw, hwm, ⟨l1, l2, hsplit, hl1⟩, ?_⟩
    intro c hc hpc
    rw [hsplit] at hc
    rcases List.mem_append.1 hc with hc | hc
    · exact Nat.le_of_lt (hl1 c hc hpc)
    · rcases List.mem_cons.1 hc with rfl | hc
      · exact Nat.le_refl _
      · exact hl2 c hc hpc

/-- Characterisation of the LRU scan of `touch`: the result is either the
initial accumulator or points at a position inside the list, its tick is a
lower bound for the whole list, and it never exceeds the initial tick. -/
lemma lruLoop_main (E : Nat → SLRUReplData) :
    ∀ (l : List Nat) (idx b0 t0 : Nat),
      ((lruLoop E l idx (b0, t0) = (b0, t0)) ∨
        ∃ k, k < l.length ∧ (lruLoop E l idx (b0, t0)).1 = idx + k ∧
          (E (l.getD k 0)).lastTouch = (lruLoop E l idx (b0, t0)).2) ∧
      (lruLoop E l idx (b0, t0)).2 ≤ t0 ∧
      ∀ c ∈ l, (lruLoop E l idx (b0, t0)).2 ≤ (E c).lastTouch := by
  intro l
  induction l with
  | nil =>
    intro idx b0 t0
    exact ⟨Or.inl rfl, Nat.le_refl _, by simp⟩
  | cons c cs ih =>
    intro idx b0 t0
    by_cases hlt : (E c).lastTouch < t0
    · have hrec : lruLoop E (c :: cs) idx (b0, t0) =
          lruLoop E cs (idx + 1) (idx, (E c).lastTouch) := by
        simp [lruLoop, hlt]
      rcases ih (idx + 1) idx (E c).lastTouch with ⟨hstruct, hle, hall⟩
      refine ⟨?_, ?_, ?_⟩
      · rcases hstruct with heq | ⟨k, hk, h1, h2⟩
        · refine Or.inr ⟨0, by simp, ?_, ?_⟩
          · rw [hrec, heq]; simp
          · rw [hrec, heq]; rfl
        · refine Or.inr ⟨k + 1, by simpa using hk, ?_, ?_⟩
          · rw [hrec, h1]; omega
          · rw [hrec]; simpa using h2
      · rw [hrec]; omega
      · intro x hx
        rw [hrec]
        rcases List.mem_cons.1 hx with rfl | hx
        · exact hle
        · exact hall x hx
    · have hrec : lruLoop E (c :: cs) idx (b0, t0) =
          lruLoop E cs (idx + 1) (b0, t0) := by
        simp [lruLoop, hlt]
      rcases ih (idx + 1) b0 t0 with ⟨hstruct, hle, hall⟩
      refine ⟨?_, ?_, ?_⟩
      · rcases hstruct with heq | ⟨k, hk, h1, h2⟩
        · exact Or.inl (by rw [hrec, heq])
        · refine Or.inr ⟨k + 1, by simpa using hk, ?_, ?_⟩
          · rw [hrec, h1]; omega
          · rw [hrec]; simpa using h2
      · rw [hrec]; exact hle
      · intro x hx
        rw [hrec]
        rcases List.mem_cons.1 hx with rfl | hx
        · omega
        · exact hall x hx

/-- The LRU scan as called by `touch` (seeded with the head) yields a
valid index whose element attains the minimum `lastTouch` of the list. -/
lemma lruLoop_spec (E : Nat → SLRUReplData) (h0 : Nat) (rest : List Nat) :
    (lruLoop E (h0 :: rest) 0 (0, (E h0).lastTouch)).1 < (h0 :: rest).length ∧
    (E ((h0 :: rest).getD (lruLoop E (h0 :: rest) 0 (0, (E h0).lastTouch)).1 0)).lastTouch =
      (lruLoop E (h0 :: rest) 0 (0, (E h0).lastTouch)).2 ∧
    ∀ c ∈ h0 :: rest,
      (lruLoop E (h0 :: rest) 0 (0, (E h0).lastTouch)).2 ≤ (E c).lastTouch := by
  rcases lruLoop_main E (h0 :: rest) 0 0 (E h0).lastTouch with ⟨hstruct, _, hall⟩
  rcases hstruct with heq | ⟨k, hk, h1, h2⟩
  · rw [heq]
    exact ⟨by simp, rfl, by rw [heq] at hall; exact hall⟩
  · rw [h1]
    simp only [Nat.zero_add] at h1 ⊢
    exact ⟨hk, h2, hall⟩

/-- Erasing at the index found by a scan of a duplicate-free list is the
same as erasing the element stored there. -/
lemma eraseIdx_eq_erase_getD {l : List Nat} {k : Nat} (hnd : l.Nodup)
    (hk : k < l.length) : l.eraseIdx k = l.erase (l.getD k 0) := by
  rw [List.getD_eq_getElem _ _ hk, List.Nodup.erase_getElem hnd k hk]

/-- The element at a valid index is a member of the list. -/
lemma getD_mem_of_lt {l : List Nat} {k : Nat} (hk : k < l.length) :
    l.getD k 0 ∈ l := by
  rw [List.getD_eq_getElem _ _ hk]
  exact List.getElem_mem hk

/-! ### Small facts about heap updates and the 32-bit counter -/

@[simp] lemma updE_same (E : Nat → SLRUReplData) (i : Nat) (d : SLRUReplData) :
    updE E i d i = d := by simp [updE]

lemma updE_other (E : Nat → SLRUReplData) {i j : Nat} (d : SLRUReplData)
    (h : j ≠ i) : updE E i d j = E j := by simp [updE, h]

lemma updE_updE_same (E : Nat → SLRUReplData) (i : Nat) (a b : SLRUReplData) :
    updE (updE E i a) i b = updE E i b := by
  funext j
  by_cases h : j = i <;> simp [updE, h]

lemma inc32_eq {n : Nat} (h : n + 1 < 2 ^ 32) : inc32 n = n + 1 :=
  Nat.mod_eq_of_lt h

lemma dec32_eq {n : Nat} (h1 : 1 ≤ n) (h2 : n < 2 ^ 32) : dec32 n = n - 1 := by
  unfold dec32
  have hrw : n + (2 ^ 32 - 1) = (n - 1) + 1 * 2 ^ 32 := by omega
  rw [hrw, Nat.add_mul_mod_self_right]
  exact Nat.mod_eq_of_lt (by omega)

/-! ### Unfolding lemmas for the operations -/

/-- `touch` on a probationary entry with spare protected capacity:
the promotion branch, after collapsing the two writes to the entry. -/
lemma touch_promote (s : SLRUState) (i now : Nat)
    (h1 : (s.entries i).segment = Segment.Probation)
    (h2 : s.protectedEntries < s.protectedSize) :
    SLRU.touch s i now =
      some ⟨s.protectedSize, s.probationSize, inc32 s.protectedEntries,
            s.protectedList ++ [i],
            updE s.entries i ⟨Segment.Protected, now⟩⟩ := by
  simp only [SLRU.touch, if_pos h1, if_pos h2, Option.map_some]
  have : updE (updE s.entries i ⟨Segment.Protected, (s.entries i).lastTouch⟩) i
      ⟨(updE s.entries i ⟨Segment.Protected, (s.entries i).lastTouch⟩ i).segment, now⟩ =
      updE s.entries i ⟨Segment.Protected, now⟩ := by
    rw [updE_same, updE_updE_same]
  exact congrArg some (congrArg _ this)

/-- `touch` on a probationary entry when the protected segment is full:
the demote-then-promote branch. -/
lemma touch_full (s : SLRUState) (i now h0 : Nat) (rest : List Nat)
    (h1 : (s.entries i).segment = Segment.Probation)
    (h2 : ¬s.protectedEntries < s.protectedSize)
    (hl : s.protectedList = h0 :: rest) :
    SLRU.touch s i now =
      some ⟨s.protectedSize, s.probationSize, s.protectedEntries,
            (h0 :: rest).eraseIdx
              (lruLoop s.entries (h0 :: rest) 0 (0, (s.entries h0).lastTouch)).1 ++ [i],
            updE (updE s.entries
                ((h0 :: rest).getD
                  (lruLoop s.entries (h0 :: rest) 0 (0, (s.entries h0).lastTouch)).1 0)
                ⟨Segment.Probation,
                 (s.entries ((h0 :: rest).getD
                   (lruLoop s.entries (h0 :: rest) 0 (0, (s.entries h0).lastTouch)).1 0)).lastTouch⟩)
              i ⟨Segment.Protected, now⟩⟩ := by
  simp [SLRU.touch, if_pos h1, if_neg h2, hl, updE_same, updE_updE_same]

/-- `touch` on an entry already in the protected segment: only the
timestamp is refreshed. -/
lemma touch_protected (s : SLRUState) (i now : Nat)
    (h1 : ¬(s.entries i).segment = Segment.Probation) :
    SLRU.touch s i now =
      some { s with entries := updE s.entries i ⟨(s.entries i).segment, now⟩ } := by
  simp [SLRU.touch, if_neg h1]

/-- `getVictim` when the probationary track of the scan finds a victim:
that victim is returned and the state is untouched. -/
lemma getVictim_prob (s : SLRUState) (cands : List Nat) (now v : Nat)
    (h : (selLoop (fun c => (s.entries c).lastTouch)
        (fun c => (s.entries c).segment = Segment.Probation) cands
        (none, tickMax)).1 = some v) :
    SLRU.getVictim s cands now = some (v, s) := by
  have hne : cands ≠ [] := by
    rintro rfl
    simp [selLoop] at h
  simp only [SLRU.getVictim, if_neg hne, victimLoop_eq_selLoop, h]

/-- `getVictim` on the fallback path: no probationary candidate below the
sentinel, but a protected one; the protected victim is demoted. -/
lemma getVictim_fallback (s : SLRUState) (cands : List Nat) (now q : Nat)
    (hne : cands ≠ [])
    (hnone : (selLoop (fun c => (s.entries c).lastTouch)
        (fun c => (s.entries c).segment = Segment.Probation) cands
        (none, tickMax)).1 = none)
    (hq : (selLoop (fun c => (s.entries c).lastTouch)
        (fun c => ¬(s.entries c).segment = Segment.Probation) cands
        (none, tickMax)).1 = some q) :
    SLRU.getVictim s cands now =
      if q ∈ s.protectedList then
        some (q, ⟨s.protectedSize, s.probationSize, dec32 s.protectedEntries,
                  s.protectedList.erase q,
                  updE s.entries q ⟨Segment.Probation, now⟩⟩)
      else
        some (q, { s with entries := updE s.entries q ⟨Segment.Probation, now⟩ }) := by
  simp only [SLRU.getVictim, if_neg hne, victimLoop_eq_selLoop, hnone, hq]

/-- `getVictim` aborts exactly when the candidate list is empty or every
candidate's `lastTouch` is at the sentinel. -/
lemma getVictim_none_iff (s : SLRUState) (cands : List Nat) (now : Nat) :
    SLRU.getVictim s cands now = none ↔
      (cands = [] ∨ ∀ c ∈ cands, tickMax ≤ (s.entries c).lastTouch) := by
  by_cases hne : cands = []
  · simp [SLRU.getVictim, hne]
  · simp only [SLRU.getVictim, if_neg hne, victimLoop_eq_selLoop]
    rcases hsel : (selLoop (fun c => (s.entries c).lastTouch)
        (fun c => (s.entries c).segment = Segment.Probation) cands
        (none, tickMax)).1 with _ | v
    · rcases hsel2 : (selLoop (fun c => (s.entries c).lastTouch)
          (fun c => ¬(s.entries c).segment = Segment.Probation) cands
          (none, tickMax)).1 with _ | q
      · simp only [reduceCtorEq]
        constructor
        · intro _
          refine Or.inr ?_
          intro c hc
          by_cases hp : (s.entries c).segment = Segment.Probation
          · exact (selLoop_none_iff _ _ cands).1 hsel c hc hp
          · exact (selLoop_none_iff _ _ cands).1 hsel2 c hc hp
        · intro _; trivial
      · rcases selLoop_some_spec _ _ cands q hsel2 with ⟨_, hlt, _, _⟩
        have hqmem : q ∈ cands := by
          rcases selLoop_some_spec _ _ cands q hsel2 with ⟨_, _, ⟨l1, l2, hsp, _⟩, _⟩
          rw [hsp]
          exact List.mem_append.2 (Or.inr (List.mem_cons_self _ _))
        constructor
        · intro hcontra
          by_cases hmem : q ∈ s.protectedList <;> simp [hmem] at hcontra
        · rintro (rfl | hall)
          · exact absurd rfl hne
          · have := hall q hqmem
            omega
    · rcases selLoop_some_spec _ _ cands v hsel with ⟨_, hlt, ⟨l1, l2, hsp, _⟩, _⟩
      have hvmem : v ∈ cands := by
        rw [hsp]
        exact List.mem_append.2 (Or.inr (List.mem_cons_self _ _))
      constructor
      · intro hcontra; cases hcontra
      · rintro (rfl | hall)
        · exact absurd rfl hne
        · have := hall v hvmem
          omega

/-- The strict variant aborts exactly when the candidate list is empty or
no probationary candidate sits below the sentinel. -/
lemma getVictimStrict_none_iff (s : SLRUState) (cands : List Nat) :
    SLRU.getVictimStrict s cands = none ↔
      (cands = [] ∨ ∀ c ∈ cands,
        (s.entries c).segment = Segment.Probation →
          tickMax ≤ (s.entries c).lastTouch) := by
  by_cases hne : cands = []
  · simp [SLRU.getVictimStrict, hne]
  · simp only [SLRU.getVictimStrict, if_neg hne, strictLoop_eq_selLoop]
    rw [selLoop_none_iff]
    simp [hne]

/-- A segment that is not `Probation` is `Protected`. -/
lemma Segment.eq_protected_of_ne {x : Segment} (h : ¬x = Segment.Probation) :
    x = Segment.Protected := by
  cases x
  · exact absurd rfl h
  · rfl

/-! ### Call sequences and the tracker invariant -/

/-- One external call to the policy.  `instantiate` creates a fresh entry;
in the model every identity already carries the constructor's initial
data, so it has no effect on the state. -/
inductive Op where
  | instantiate
  | touch (i now : Nat)
  | reset (i now : Nat)
  | invalidate (i : Nat)
  | getVictim (cands : List Nat) (now : Nat)

/-- Execute one call.  The second component carries the victim returned by
`getVictim`; `none` as overall result models an aborted call. -/
def stepOp (s : SLRUState) : Op → Option (SLRUState × Option Nat)
  | Op.instantiate => some (s, none)
  | Op.touch i now => (SLRU.touch s i now).map (fun t => (t, none))
  | Op.reset i now => some (SLRU.reset s i now, none)
  | Op.invalidate i => some (SLRU.invalidate s i, none)
  | Op.getVictim cands now =>
      (SLRU.getVictim s cands now).map (fun p => (p.2, some p.1))

/-- Execute a sequence of calls, collecting the victims returned along the
way; `none` if any call aborts. -/
def run (s : SLRUState) : List Op → Option (SLRUState × List Nat)
  | [] => some (s, [])
  | o :: os =>
    match stepOp s o with
    | none => none
    | some (s', out) =>
      (run s' os).map fun p =>
        (p.1, match out with
              | none => p.2
              | some v => v :: p.2)

/-- The tracker invariant: the counter mirrors the length of
`protectedList`, which never exceeds the configured protected capacity, is
duplicate-free, and contains exactly the entries marked `Protected`.  The
bound on `protectedSize` records that it is a C++ `unsigned`. -/
def SLRUInv (s : SLRUState) : Prop :=
  s.protectedSize < 2 ^ 32 ∧
  s.protectedEntries = s.protectedList.length ∧
  s.protectedList.length ≤ s.protectedSize ∧
  s.protectedList.Nodup ∧
  ∀ i, (s.entries i).segment = Segment.Protected ↔ i ∈ s.protectedList

/-- Demoting a current member of the protected list (as `invalidate`,
`reset` and the `getVictim` fallback do) preserves the invariant. -/
lemma inv_demote (s : SLRUState) (q t : Nat) (hInv : SLRUInv s)
    (hq : q ∈ s.protectedList) :
    SLRUInv ⟨s.protectedSize, s.probationSize, dec32 s.protectedEntries,
             s.protectedList.erase q,
             updE s.entries q ⟨Segment.Probation, t⟩⟩ := by
  obtain ⟨hsz, hcnt, hle, hnd, hiff⟩ := hInv
  have hlen : 1 ≤ s.protectedList.length := List.length_pos_of_mem hq
  refine ⟨hsz, ?_, ?_, hnd.erase q, ?_⟩ <;> dsimp only
  · rw [List.length_erase_of_mem hq, hcnt]
    exact dec32_eq (by omega) (by omega)
  · rw [List.length_erase_of_mem hq]
    omega
  · intro j
    by_cases hj : j = q
    · subst hj
      simp only [updE_same]
      constructor
      · intro hcontra; cases hcontra
      · intro hmem
        exact absurd hmem (hnd.not_mem_erase)
    · rw [updE_other _ _ hj, List.mem_erase_of_ne hj]
      exact hiff j

/-- `reset` preserves the tracker invariant. -/
lemma inv_reset (s : SLRUState) (i now : Nat) (hInv : SLRUInv s) :
    SLRUInv (SLRU.reset s i now) := by
  obtain ⟨hsz, hcnt, hle, hnd, hiff⟩ := hInv
  by_cases hseg : (s.entries i).segment = Segment.Protected
  · have hmem : i ∈ s.protectedList := (hiff i).1 hseg
    simp only [SLRU.reset, if_pos hseg, if_pos hmem]
    exact inv_demote s i now ⟨hsz, hcnt, hle, hnd, hiff⟩ hmem
  · have hmem : i ∉ s.protectedList := fun h => hseg ((hiff i).2 h)
    simp only [SLRU.reset, if_neg hseg]
    refine ⟨hsz, hcnt, hle, hnd, ?_⟩
    intro j
    dsimp only
    by_cases hj : j = i
    · subst hj
      simp only [updE_same]
      constructor
      · intro hcontra; cases hcontra
      · intro h; exact absurd h hmem
    · rw [updE_other _ _ hj]
      exact hiff j

/-- `invalidate` is `reset` with tick 0. -/
lemma invalidate_eq_reset_zero (s : SLRUState) (i : Nat) :
    SLRU.invalidate s i = SLRU.reset s i 0 := rfl

/-- `invalidate` preserves the tracker invariant. -/
lemma inv_invalidate (s : SLRUState) (i : Nat) (hInv : SLRUInv s) :
    SLRUInv (SLRU.invalidate s i) := by
  rw [invalidate_eq_reset_zero]
  exact inv_reset s i 0 hInv

/-- `touch` preserves the tracker invariant whenever it completes. -/
lemma inv_touch (s : SLRUState) (i now : Nat) (s' : SLRUState)
    (hInv : SLRUInv s) (h : SLRU.touch s i now = some s') : SLRUInv s' := by
  obtain ⟨hsz, hcnt, hle, hnd, hiff⟩ := hInv
  by_cases hseg : (s.entries i).segment = Segment.Probation
  · have hnmem : i ∉ s.protectedList := by
      intro hmem
      rw [← hiff i] at hmem
      rw [hseg] at hmem
      cases hmem
    by_cases hcap : s.protectedEntries < s.protectedSize
    · rw [touch_promote s i now hseg hcap] at h
      injection h with h
      subst h
      refine ⟨hsz, ?_, ?_, ?_, ?_⟩ <;> dsimp only
      · simp only [List.length_append, List.length_cons, List.length_nil]
        rw [inc32_eq (by omega), hcnt]
      · simp only [List.length_append, List.length_cons, List.length_nil]
        omega
      · refine List.nodup_append.2 ⟨hnd, List.nodup_singleton i, ?_⟩
        intro a ha hai
        rcases List.mem_singleton.1 hai with rfl
        exact hnmem ha
      · intro j
        by_cases hj : j = i
        · subst hj
          simp [updE_same]
        · rw [updE_other _ _ hj]
          rw [List.mem_append, List.mem_singleton]
          constructor
          · intro hp; exact Or.inl ((hiff j).1 hp)
          · rintro (hmem | rfl)
            · exact (hiff j).2 hmem
            · exact absurd rfl hj
    · rcases hl : s.protectedList with _ | ⟨h0, rest⟩
      · rw [SLRU.touch, if_pos hseg, if_neg hcap, hl] at h
        cases h
      · rw [touch_full s i now h0 rest hseg hcap hl] at h
        injection h with h
        subst h
        rcases lruLoop_spec s.entries h0 rest with ⟨hk, hgetd, hmin⟩
        set bi := (lruLoop s.entries (h0 :: rest) 0 (0, (s.entries h0).lastTouch)).1 with hbi
        set m := (h0 :: rest).getD bi 0 with hm
        have hndl : (h0 :: rest).Nodup := hl ▸ hnd
        have hmmem : m ∈ s.protectedList := by
          rw [hl]; exact getD_mem_of_lt hk
        have hmprot : (s.entries m).segment = Segment.Protected := (hiff m).2 hmmem
        have hmi : m ≠ i := by
          intro he
          rw [he, hseg] at hmprot
          cases hmprot
        have heri : (h0 :: rest).eraseIdx bi = (h0 :: rest).erase m :=
          eraseIdx_eq_erase_getD hndl hk
        have hinot : i ∉ (h0 :: rest) := fun hmem => hnmem (hl ▸ hmem)
        have hlen1 : 1 ≤ (h0 :: rest).length := by simp
        have hmmem' : m ∈ (h0 :: rest) := hl ▸ hmmem
        refine ⟨hsz, ?_, ?_, ?_, ?_⟩ <;> dsimp only
        · rw [heri]
          simp only [List.length_append, List.length_cons, List.length_nil]
          rw [List.length_erase_of_mem hmmem', hcnt, hl]
          simp only [List.length_cons]
          omega
        · rw [heri]
          simp only [List.length_append, List.length_cons, List.length_nil]
          rw [List.length_erase_of_mem hmmem']
          have : (h0 :: rest).length ≤ s.protectedSize := hl ▸ hle
          omega
        · rw [heri]
          refine List.nodup_append.2 ⟨hndl.erase m, List.nodup_singleton i, ?_⟩
          intro a ha hai
          rcases List.mem_singleton.1 hai with rfl
          exact hinot (List.mem_of_mem_erase ha)
        · intro j
          rw [heri]
          by_cases hj : j = i
          · subst hj
            simp [updE_same]
          · rw [updE_other _ _ hj]
            by_cases hjm : j = m
            · subst hjm
              rw [updE_same]
              simp only [List.mem_append, List.mem_singleton]
              constructor
              · intro hcontra; cases hcontra
              · rintro (hmem | rfl)
                · exact absurd hmem (hndl.not_mem_erase)
                · exact absurd rfl hj
            · rw [updE_other _ _ hjm]
              rw [List.mem_append, List.mem_singleton]
              constructor
              · intro hp
                refine Or.inl ?_
                rw [List.mem_erase_of_ne hjm]
                exact hl ▸ (hiff j).1 hp
              · rintro (hmem | rfl)
                · rw [List.mem_erase_of_ne hjm] at hmem
                  exact (hiff j).2 (hl ▸ hmem)
                · exact absurd rfl hj
  · rw [touch_protected s i now hseg] at h
    injection h with h
    subst h
    refine ⟨hsz, hcnt, hle, hnd, ?_⟩
    intro j
    dsimp only
    by_cases hj : j = i
    · subst hj
      simp only [updE_same]
      exact hiff j
    · rw [updE_other _ _ hj]
      exact hiff j

/-- `getVictim` preserves the tracker invariant whenever it completes. -/
lemma inv_getVictim (s : SLRUState) (cands : List Nat) (now v : Nat)
    (s' : SLRUState) (hInv : SLRUInv s)
    (h : SLRU.getVictim s cands now = some (v, s')) : SLRUInv s' := by
  by_cases hne : cands = []
  · rw [SLRU.getVictim, if_pos hne] at h
    cases h
  · rcases hsel : (selLoop (fun c => (s.entries c).lastTouch)
        (fun c => (s.entries c).segment = Segment.Probation) cands
        (none, tickMax)).1 with _ | w
    · rcases hsel2 : (selLoop (fun c => (s.entries c).lastTouch)
          (fun c => ¬(s.entries c).segment = Segment.Probation) cands
          (none, tickMax)).1 with _ | q
      · rw [SLRU.getVictim, if_neg hne] at h
        simp only [victimLoop_eq_selLoop, hsel, hsel2] at h
        cases h
      · rw [getVictim_fallback s cands now q hne hsel hsel2] at h
        rcases selLoop_some_spec _ _ cands q hsel2 with ⟨hq, _, _, _⟩
        have hqprot : (s.entries q).segment = Segment.Protected :=
          Segment.eq_protected_of_ne hq
        have hqmem : q ∈ s.protectedList := (hInv.2.2.2.2 q).1 hqprot
        rw [if_pos hqmem] at h
        injection h with h
        injection h with h1 h2
        subst h2
        exact inv_demote s q now hInv hqmem
    · rw [getVictim_prob s cands now w hsel] at h
      injection h with h
      injection h with h1 h2
      subst h2
      exact hInv

/-- Every completed call preserves the tracker invariant. -/
lemma inv_stepOp (s : SLRUState) (o : Op) (s' : SLRUState) (out : Option Nat)
    (hInv : SLRUInv s) (h : stepOp s o = some (s', out)) : SLRUInv s' := by
  cases o with
  | instantiate =>
    rw [stepOp] at h
    injection h with h
    injection h with h1 h2
    subst h1
    exact hInv
  | touch i now =>
    rw [stepOp] at h
    rcases ht : SLRU.touch s i now with _ | t
    · rw [ht] at h; cases h
    · rw [ht] at h
      injection h with h
      injection h with h1 h2
      subst h1
      exact inv_touch s i now t hInv ht
  | reset i now =>
    rw [stepOp] at h
    injection h with h
    injection h with h1 h2
    subst h1
    exact inv_reset s i now hInv
  | invalidate i =>
    rw [stepOp] at h
    injection h with h
    injection h with h1 h2
    subst h1
    exact inv_invalidate s i hInv
  | getVictim cands now =>
    rw [stepOp] at h
    rcases hg : SLRU.getVictim s cands now with _ | p
    · rw [hg] at h; cases h
    · rw [hg] at h
      injection h with h
      injection h with h1 h2
      subst h1
      exact inv_getVictim s cands now p.1 p.2 hInv (by rw [hg])

/-- A completed run from an invariant state ends in an invariant state. -/
lemma inv_run : ∀ (ops : List Op) (s : SLRUState) (s' : SLRUState)
    (tr : List Nat), SLRUInv s → run s ops = some (s', tr) → SLRUInv s' := by
  intro ops
  induction ops with
  | nil =>
    intro s s' tr hInv h
    rw [run] at h
    injection h with h
    injection h with h1 h2
    subst h1
    exact hInv
  | cons o os ih =>
    intro s s' tr hInv h
    rw [run] at h
    rcases hs : stepOp s o with _ | p
    · rw [hs] at h; cases h
    · obtain ⟨s1, out⟩ := p
      rw [hs] at h
      dsimp only at h
      rcases hr : run s1 os with _ | q
      · rw [hr] at h; cases h
      · rw [hr] at h
        injection h with h
        injection h with h1 h2
        subst h1
        exact ih s1 q.1 q.2 (inv_stepOp s o s1 out hInv hs) (by rw [hr])

/-- The freshly constructed policy satisfies the tracker invariant. -/
lemma inv_init (psize qsize : Nat) (h : psize < 2 ^ 32) :
    SLRUInv (SLRU.init psize qsize) := by
  refine ⟨h, rfl, by simp [SLRU.init], by simp [SLRU.init], ?_⟩
  intro i
  simp [SLRU.init, SLRU.instantiateEntry]

/-- A `some` result of the sentinel-seeded loop is a member of the list. -/
lemma selLoop_some_mem (key : Nat → Nat) (p : Nat → Prop) [DecidablePred p]
    (cs : List Nat) (v : Nat)
    (h : (selLoop key p cs (none, tickMax)).1 = some v) : v ∈ cs := by
  rcases selLoop_some_spec key p cs v h with ⟨_, _, ⟨l1, l2, hsp, _⟩, _⟩
  rw [hsp]
  exact List.mem_append.2 (Or.inr (List.mem_cons_self _ _))

/-! ### C1 — tracker invariant over all call sequences -/

/-- C1: starting from a freshly constructed policy, after every completed
sequence of `instantiateEntry`/`touch`/`reset`/`invalidate`/`getVictim`
calls, `protectedEntries` equals the length of `protectedList`,
`protectedEntries ≤ protectedSize`, and an entry is marked `Protected`
exactly when its identity occurs in `protectedList`, and then exactly once
(count 1, never duplicated). -/
theorem slru_tracker_invariant (psize qsize : Nat) (hps : psize < 2 ^ 32)
    (ops : List Op) (s : SLRUState) (tr : List Nat)
    (h : run (SLRU.init psize qsize) ops = some (s, tr)) :
    s.protectedEntries = s.protectedList.length ∧
    s.protectedEntries ≤ s.protectedSize ∧
    ∀ i, s.protectedList.count i =
      (if (s.entries i).segment = Segment.Protected then 1 else 0) := by
  have hInv := inv_run ops (SLRU.init psize qsize) s tr (inv_init psize qsize hps) h
  obtain ⟨hsz, hcnt, hle, hnd, hiff⟩ := hInv
  refine ⟨hcnt, by omega, ?_⟩
  intro i
  by_cases hp : (s.entries i).segment = Segment.Protected
  · rw [if_pos hp]
    exact List.count_eq_one_of_mem hnd ((hiff i).1 hp)
  · rw [if_neg hp]
    exact List.count_eq_zero.2 fun hmem => hp ((hiff i).2 hmem)

/-- Witness for C1 at a concrete run: two promotions and one eviction. -/
theorem slru_tracker_invariant_witness :
    2 < 2 ^ 32 ∧
    (((run (SLRU.init 2 4) [Op.touch 0 5, Op.touch 1 6, Op.getVictim [0, 1, 2] 7]).getD
        (SLRU.init 0 0, [])).1.protectedEntries ≤
      ((run (SLRU.init 2 4) [Op.touch 0 5, Op.touch 1 6, Op.getVictim [0, 1, 2] 7]).getD
        (SLRU.init 0 0, [])).1.protectedSize) := by
  constructor
  · decide
  · exact (slru_tracker_invariant 2 4 (by decide)
      [Op.touch 0 5, Op.touch 1 6, Op.getVictim [0, 1, 2] 7] _ _ rfl).2.1

/-! ### C2 — promotion threshold -/

/-- C2 counterexample: a freshly instantiated entry (Probation, tick 0)
under spare protected capacity is already `Protected` after a single
`touch` call, so one touch does not leave it in `Probation` as claimed. -/
theorem touch_once_promotes_cex :
    ((SLRU.init 2 4).entries 0).segment = Segment.Probation ∧
    ((SLRU.init 2 4).entries 0).lastTouch = 0 ∧
    (SLRU.init 2 4).protectedEntries < (SLRU.init 2 4).protectedSize ∧
    (SLRU.touch (SLRU.init 2 4) 0 5).map (fun t => (t.entries 0).segment) =
      some Segment.Protected := by
  refine ⟨rfl, rfl, by decide, by decide⟩

/-- C2 amended: a freshly instantiated entry is probationary before any
touch, and with spare protected capacity the first `touch` call already
promotes it to `Protected` (the spec's "two accesses" counts the initial
insertion as the first access). -/
theorem touch_promotion_threshold (s : SLRUState) (i now : Nat)
    (h0 : s.entries i = ⟨Segment.Probation, 0⟩)
    (hcap : s.protectedEntries < s.protectedSize) :
    SLRU.instantiateEntry.segment = Segment.Probation ∧
    ∃ s', SLRU.touch s i now = some s' ∧
      (s'.entries i).segment = Segment.Protected ∧
      (s'.entries i).lastTouch = now := by
  refine ⟨rfl, ?_⟩
  have hseg : (s.entries i).segment = Segment.Probation := by rw [h0]
  refine ⟨_, touch_promote s i now hseg hcap, ?_, ?_⟩
  · dsimp only
    rw [updE_same]
  · dsimp only
    rw [updE_same]

/-- Witness for C2 amended at the fresh policy. -/
theorem touch_promotion_threshold_witness :
    (SLRU.init 2 4).entries 0 = ⟨Segment.Probation, 0⟩ ∧
    (SLRU.init 2 4).protectedEntries < (SLRU.init 2 4).protectedSize ∧
    (SLRU.instantiateEntry.segment = Segment.Probation ∧
     ∃ s', SLRU.touch (SLRU.init 2 4) 0 5 = some s' ∧
       (s'.entries 0).segment = Segment.Protected ∧
       (s'.entries 0).lastTouch = 5) :=
  ⟨rfl, by decide, touch_promotion_threshold (SLRU.init 2 4) 0 5 rfl (by decide)⟩

/-! ### C3 — victim preference for probationary candidates -/

/-- Concrete state for counterexamples: entry 0 probationary at the
sentinel tick `tickMax`, every other entry protected with tick 5;
`protectedList = [1]`. -/
def cexA : SLRUState :=
  ⟨2, 2, 1, [1], fun j => if j = 0 then ⟨Segment.Probation, tickMax⟩
                          else ⟨Segment.Protected, 5⟩⟩

/-- C3 counterexample: the candidate list `[0, 1]` contains the
probationary entry 0, yet `getVictim` returns entry 1, which was
`Protected` — the sentinel comparison skips a probationary candidate whose
`lastTouch` equals `2 ^ 64 - 1`. -/
theorem getVictim_prefers_probation_cex :
    (cexA.entries 0).segment = Segment.Probation ∧ 0 ∈ [0, 1] ∧
    (SLRU.getVictim cexA [0, 1] 9).map (fun p => p.1) = some 1 ∧
    (cexA.entries 1).segment = Segment.Protected := by
  refine ⟨rfl, by decide, by decide, rfl⟩

/-- C3 amended: if some probationary candidate has `lastTouch` strictly
below `tickMax`, then `getVictim` leaves the state unchanged and returns a
probationary candidate of minimal `lastTouch` among all probationary
candidates, the first such candidate in iteration order winning ties. -/
theorem getVictim_prefers_probation (s : SLRUState) (cands : List Nat)
    (now : Nat)
    (hex : ∃ c ∈ cands, (s.entries c).segment = Segment.Probation ∧
      (s.entries c).lastTouch < tickMax) :
    ∃ v, SLRU.getVictim s cands now = some (v, s) ∧
      (s.entries v).segment = Segment.Probation ∧
      (∀ c ∈ cands, (s.entries c).segment = Segment.Probation →
        (s.entries v).lastTouch ≤ (s.entries c).lastTouch) ∧
      ∃ l1 l2, cands = l1 ++ v :: l2 ∧
        ∀ c ∈ l1, (s.entries c).segment = Segment.Probation →
          (s.entries v).lastTouch < (s.entries c).lastTouch := by
  obtain ⟨c0, hc0mem, hc0p, hc0lt⟩ := hex
  rcases hsel : (selLoop (fun c => (s.entries c).lastTouch)
      (fun c => (s.entries c).segment = Segment.Probation) cands
      (none, tickMax)).1 with _ | v
  · exfalso
    have := (selLoop_none_iff _ _ cands).1 hsel c0 hc0mem hc0p
    omega
  · rcases selLoop_some_spec _ _ cands v hsel with
      ⟨hv, hvlt, ⟨l1, l2, hsp, hl1⟩, hmin⟩
    exact ⟨v, getVictim_prob s cands now v hsel, hv, hmin, l1, l2, hsp, hl1⟩

/-- Witness for C3 amended: at the fresh policy every entry is
probationary with tick 0, and the first candidate is selected. -/
theorem getVictim_prefers_probation_witness :
    (∃ c ∈ [4, 9], ((SLRU.init 2 4).entries c).segment = Segment.Probation ∧
      ((SLRU.init 2 4).entries c).lastTouch < tickMax) ∧
    (∃ v, SLRU.getVictim (SLRU.init 2 4) [4, 9] 3 = some (v, SLRU.init 2 4) ∧
      ((SLRU.init 2 4).entries v).segment = Segment.Probation ∧
      (∀ c ∈ [4, 9], ((SLRU.init 2 4).entries c).segment = Segment.Probation →
        ((SLRU.init 2 4).entries v).lastTouch ≤ ((SLRU.init 2 4).entries c).lastTouch) ∧
      ∃ l1 l2, [4, 9] = l1 ++ v :: l2 ∧
        ∀ c ∈ l1, ((SLRU.init 2 4).entries c).segment = Segment.Probation →
          ((SLRU.init 2 4).entries v).lastTouch < ((SLRU.init 2 4).entries c).lastTouch) :=
  ⟨⟨4, by decide, rfl, by decide⟩,
   getVictim_prefers_probation (SLRU.init 2 4) [4, 9] 3 ⟨4, by decide, rfl, by decide⟩⟩

/-! ### C4 — fallback rule of `getVictim` -/

/-- Concrete state for the C4 counterexample: entry 0 protected at the
sentinel tick (a consistent tracker: `protectedList = [0]`, count 1). -/
def cexB : SLRUState :=
  ⟨2, 2, 1, [0], fun j => if j = 0 then ⟨Segment.Protected, tickMax⟩
                          else ⟨Segment.Probation, 7⟩⟩

/-- C4 counterexample: on the non-empty all-`Protected` candidate list
`[0]` the code does not return the minimum-`lastTouch` candidate — it
aborts (`assert(oldestProt)` fails), because the only candidate's
`lastTouch` equals the sentinel `2 ^ 64 - 1`. -/
theorem getVictim_fallback_cex :
    ([0] : List Nat) ≠ [] ∧
    (cexB.entries 0).segment = Segment.Protected ∧
    SLRU.getVictim cexB [0] 3 = none := by
  refine ⟨by decide, rfl, rfl⟩

/-- C4 amended: on a non-empty all-`Protected` candidate list containing
at least one candidate with `lastTouch` below `tickMax`, and in a state
satisfying the tracker invariant, `getVictim` returns a candidate of
minimal `lastTouch`, demotes it to `Probation` with the current tick,
removes it from `protectedList`, decrements `protectedEntries`, and the
Protected ⇔ membership invariant still holds afterwards. -/
theorem getVictim_fallback_demotes (s : SLRUState) (cands : List Nat)
    (now : Nat)
    (hall : ∀ c ∈ cands, (s.entries c).segment = Segment.Protected)
    (hex : ∃ c ∈ cands, (s.entries c).lastTouch < tickMax)
    (hInv : SLRUInv s) :
    ∃ v s', SLRU.getVictim s cands now = some (v, s') ∧
      v ∈ cands ∧
      (∀ c ∈ cands, (s.entries v).lastTouch ≤ (s.entries c).lastTouch) ∧
      s'.entries v = ⟨Segment.Probation, now⟩ ∧
      v ∉ s'.protectedList ∧
      s'.protectedEntries + 1 = s.protectedEntries ∧
      ∀ i, (s'.entries i).segment = Segment.Protected ↔ i ∈ s'.protectedList := by
  obtain ⟨c0, hc0mem, hc0lt⟩ := hex
  have hne : cands ≠ [] := by
    rintro rfl
    cases hc0mem
  have hnotprob : ∀ c ∈ cands, ¬(s.entries c).segment = Segment.Probation := by
    intro c hc hp
    rw [hall c hc] at hp
    cases hp
  have hsel : (selLoop (fun c => (s.entries c).lastTouch)
      (fun c => (s.entries c).segment = Segment.Probation) cands
      (none, tickMax)).1 = none := by
    rw [selLoop_none_iff]
    intro c hc hp
    exact absurd hp (hnotprob c hc)
  rcases hsel2 : (selLoop (fun c => (s.entries c).lastTouch)
      (fun c => ¬(s.entries c).segment = Segment.Probation) cands
      (none, tickMax)).1 with _ | q
  · exfalso
    have := (selLoop_none_iff _ _ cands).1 hsel2 c0 hc0mem (hnotprob c0 hc0mem)
    omega
  · rcases selLoop_some_spec _ _ cands q hsel2 with ⟨hq, hqlt, _, hmin⟩
    have hqmem : q ∈ cands := selLoop_some_mem _ _ cands q hsel2
    have hqprot : (s.entries q).segment = Segment.Protected :=
      Segment.eq_protected_of_ne hq
    have hqlist : q ∈ s.protectedList := (hInv.2.2.2.2 q).1 hqprot
    have hres := getVictim_fallback s cands now q hne hsel hsel2
    rw [if_pos hqlist] at hres
    have hdem := inv_demote s q now hInv hqlist
    refine ⟨q, _, hres, hqmem, ?_, ?_, ?_, ?_, ?_⟩
    · intro c hc
      exact hmin c hc (hnotprob c hc)
    · dsimp only
      rw [updE_same]
    · dsimp only
      exact hInv.2.2.2.1.not_mem_erase
    · dsimp only
      have hlen : 1 ≤ s.protectedList.length := List.length_pos_of_mem hqlist
      have h32 : s.protectedList.length < 2 ^ 32 := by
        have := hInv.2.2.1
        have := hInv.1
        omega
      rw [hInv.2.1, dec32_eq (by omega) (by omega)]
      omega
    · exact hdem.2.2.2.2

/-- Consistent state with one protected entry (tick 5) for witnesses. -/
def oneProt : SLRUState :=
  ⟨2, 2, 1, [0], fun j => if j = 0 then ⟨Segment.Protected, 5⟩
                          else ⟨Segment.Probation, 0⟩⟩

/-- The single-protected-entry state satisfies the tracker invariant. -/
lemma oneProt_inv : SLRUInv oneProt := by
  refine ⟨by decide, rfl, by decide, by decide, ?_⟩
  intro j
  by_cases hj : j = 0 <;> simp [oneProt, hj]

/-- Witness for C4 amended on a consistent single-protected-entry state. -/
theorem getVictim_fallback_demotes_witness :
    (∀ c ∈ [0], (oneProt.entries c).segment = Segment.Protected) ∧
    (∃ c ∈ [0], (oneProt.entries c).lastTouch < tickMax) ∧
    (∃ v s', SLRU.getVictim oneProt [0] 11 = some (v, s') ∧
      v ∈ [0] ∧
      (∀ c ∈ [0], (oneProt.entries v).lastTouch ≤ (oneProt.entries c).lastTouch) ∧
      s'.entries v = ⟨Segment.Probation, 11⟩ ∧
      v ∉ s'.protectedList ∧
      s'.protectedEntries + 1 = oneProt.protectedEntries ∧
      ∀ i, (s'.entries i).segment = Segment.Protected ↔ i ∈ s'.protectedList) :=
  ⟨by decide, ⟨0, by decide, by decide⟩,
   getVictim_fallback_demotes oneProt [0] 11 (by decide)
     ⟨0, by decide, by decide⟩ oneProt_inv⟩

/-! ### C5 — demotion-on-full in `touch` -/

/-- C5: touching a probationary entry while the protected segment is full
demotes a least-recently-touched member of `protectedList` (its
`lastTouch` unchanged), removes it from the list, promotes the touched
entry into the list with the current tick, and leaves `protectedEntries`
unchanged. -/
theorem touch_demotion_on_full (s : SLRUState) (i now : Nat)
    (hseg : (s.entries i).segment = Segment.Probation)
    (hfull : s.protectedEntries = s.protectedSize)
    (hpos : 0 < s.protectedSize)
    (hInv : SLRUInv s) :
    ∃ s' m, SLRU.touch s i now = some s' ∧
      m ∈ s.protectedList ∧
      (∀ c ∈ s.protectedList,
        (s.entries m).lastTouch ≤ (s.entries c).lastTouch) ∧
      (s'.entries m).segment = Segment.Probation ∧
      (s'.entries m).lastTouch = (s.entries m).lastTouch ∧
      m ∉ s'.protectedList ∧
      (s'.entries i).segment = Segment.Protected ∧
      i ∈ s'.protectedList ∧
      (s'.entries i).lastTouch = now ∧
      s'.protectedEntries = s.protectedEntries := by
  obtain ⟨hsz, hcnt, hle, hnd, hiff⟩ := hInv
  have hcap : ¬s.protectedEntries < s.protectedSize := by omega
  have hlen : 0 < s.protectedList.length := by omega
  rcases hl : s.protectedList with _ | ⟨h0, rest⟩
  · rw [hl] at hlen
    cases hlen
  · have ht := touch_full s i now h0 rest hseg hcap hl
    rcases lruLoop_spec s.entries h0 rest with ⟨hk, hgetd, hmin⟩
    set bi := (lruLoop s.entries (h0 :: rest) 0 (0, (s.entries h0).lastTouch)).1 with hbi
    set m := (h0 :: rest).getD bi 0 with hm
    have hndl : (h0 :: rest).Nodup := hl ▸ hnd
    have hmmem : m ∈ s.protectedList := by
      rw [hl]; exact getD_mem_of_lt hk
    have hmprot : (s.entries m).segment = Segment.Protected := (hiff m).2 hmmem
    have hmi : m ≠ i := by
      intro he
      rw [he, hseg] at hmprot
      cases hmprot
    have hinot : i ∉ (h0 :: rest) := by
      intro hmem
      have : (s.entries i).segment = Segment.Protected := (hiff i).2 (hl ▸ hmem)
      rw [hseg] at this
      cases this
    have heri : (h0 :: rest).eraseIdx bi = (h0 :: rest).erase m :=
      eraseIdx_eq_erase_getD hndl hk
    refine ⟨_, m, ht, hl ▸ hmmem, ?_, ?_, ?_, ?_, ?_, ?_, ?_, rfl⟩
    · intro c hc
      rw [hgetd]
      exact hmin c hc
    · dsimp only
      rw [updE_other _ _ hmi, updE_same]
    · dsimp only
      rw [updE_other _ _ hmi, updE_same]
    · dsimp only
      rw [heri]
      intro hmem
      rcases List.mem_append.1 hmem with hmem | hmem
      · exact hndl.not_mem_erase hmem
      · exact hmi (List.mem_singleton.1 hmem)
    · dsimp only
      rw [updE_same]
    · dsimp only
      exact List.mem_append.2 (Or.inr (List.mem_singleton.2 rfl))
    · dsimp only
      rw [updE_same]

/-- Full one-slot protected state used by the C5 and C8 witnesses. -/
def sFull : SLRUState :=
  ⟨1, 2, 1, [5], fun j => if j = 5 then ⟨Segment.Protected, 3⟩
                          else ⟨Segment.Probation, 0⟩⟩

/-- The full one-slot state satisfies the tracker invariant. -/
lemma sFull_inv : SLRUInv sFull := by
  refine ⟨by decide, rfl, by decide, by decide, ?_⟩
  intro j
  by_cases hj : j = 5 <;> simp [sFull, hj]

/-- Witness for C5 on the full one-slot state. -/
theorem touch_demotion_on_full_witness :
    (sFull.entries 7).segment = Segment.Probation ∧
    sFull.protectedEntries = sFull.protectedSize ∧
    0 < sFull.protectedSize ∧
    (∃ s' m, SLRU.touch sFull 7 9 = some s' ∧
      m ∈ sFull.protectedList ∧
      (∀ c ∈ sFull.protectedList,
        (sFull.entries m).lastTouch ≤ (sFull.entries c).lastTouch) ∧
      (s'.entries m).segment = Segment.Probation ∧
      (s'.entries m).lastTouch = (sFull.entries m).lastTouch ∧
      m ∉ s'.protectedList ∧
      (s'.entries 7).segment = Segment.Protected ∧
      7 ∈ s'.protectedList ∧
      (s'.entries 7).lastTouch = 9 ∧
      s'.protectedEntries = sFull.protectedEntries) :=
  ⟨rfl, rfl, by decide,
   touch_demotion_on_full sFull 7 9 rfl rfl (by decide) sFull_inv⟩

/-! ### C8 — invalidate postcondition -/

/-- C8: after `invalidate(e)` the entry is `⟨Probation, Tick(0)⟩`; if it
was `Protected` and present in `protectedList`, `protectedEntries` drops
by exactly one and the entry leaves the list; if it was marked `Protected`
but absent from the list, both the list and the counter are untouched (a
no-op, not an error).  The hypotheses are the tracker's count/duplicate
facts, which hold in every reachable state. -/
theorem invalidate_resets_entry (s : SLRUState) (e : Nat)
    (hcnt : s.protectedEntries = s.protectedList.length)
    (hnd : s.protectedList.Nodup)
    (hsz : s.protectedList.length < 2 ^ 32) :
    (SLRU.invalidate s e).entries e = ⟨Segment.Probation, 0⟩ ∧
    ((s.entries e).segment = Segment.Protected ∧ e ∈ s.protectedList →
      (SLRU.invalidate s e).protectedEntries + 1 = s.protectedEntries ∧
      e ∉ (SLRU.invalidate s e).protectedList) ∧
    ((s.entries e).segment = Segment.Protected ∧ e ∉ s.protectedList →
      (SLRU.invalidate s e).protectedList = s.protectedList ∧
      (SLRU.invalidate s e).protectedEntries = s.protectedEntries) := by
  refine ⟨?_, ?_, ?_⟩
  · by_cases hseg : (s.entries e).segment = Segment.Protected
    · by_cases hmem : e ∈ s.protectedList
      · simp only [SLRU.invalidate, if_pos hseg, if_pos hmem]
        rw [updE_same]
      · simp only [SLRU.invalidate, if_pos hseg, if_neg hmem]
        rw [updE_same]
    · simp only [SLRU.invalidate, if_neg hseg]
      rw [updE_same]
  · rintro ⟨hseg, hmem⟩
    simp only [SLRU.invalidate, if_pos hseg, if_pos hmem]
    have hlen : 1 ≤ s.protectedList.length := List.length_pos_of_mem hmem
    constructor
    · rw [dec32_eq (by omega) (by omega)]
      omega
    · exact hnd.not_mem_erase
  · rintro ⟨hseg, hmem⟩
    simp only [SLRU.invalidate, if_pos hseg, if_neg hmem]
    exact ⟨trivial, trivial⟩

/-- Witness for C8 on the full one-slot state (entry 5 protected and
present). -/
theorem invalidate_resets_entry_witness :
    sFull.protectedEntries = sFull.protectedList.length ∧
    ((SLRU.invalidate sFull 5).entries 5 = ⟨Segment.Probation, 0⟩ ∧
     ((sFull.entries 5).segment = Segment.Protected ∧ 5 ∈ sFull.protectedList →
       (SLRU.invalidate sFull 5).protectedEntries + 1 = sFull.protectedEntries ∧
       5 ∉ (SLRU.invalidate sFull 5).protectedList) ∧
     ((sFull.entries 5).segment = Segment.Protected ∧ 5 ∉ sFull.protectedList →
       (SLRU.invalidate sFull 5).protectedList = sFull.protectedList ∧
       (SLRU.invalidate sFull 5).protectedEntries = sFull.protectedEntries)) :=
  ⟨rfl, invalidate_resets_entry sFull 5 rfl (by decide) (by decide)⟩

/-! ### C7 — abort condition of the two `getVictim` variants -/

/-- C7 counterexample: the strict variant aborts on the non-empty list
`[0]` although it contains a probationary entry (entry 0, whose
`lastTouch` equals the sentinel), so "aborts iff empty or no probationary
candidate" is false as stated. -/
theorem getVictim_abort_iff_cex :
    (cexA.entries 0).segment = Segment.Probation ∧
    ([0] : List Nat) ≠ [] ∧
    SLRU.getVictimStrict cexA [0] = none := by
  refine ⟨rfl, by decide, rfl⟩

/-- C7 amended: the strict variant aborts iff the candidate list is empty
or contains no probationary candidate with `lastTouch` below `tickMax`;
the fallback variant aborts iff the list is empty or contains no candidate
at all with `lastTouch` below `tickMax`. -/
theorem getVictim_abort_iff :
    (∀ (s : SLRUState) (cands : List Nat),
      SLRU.getVictimStrict s cands = none ↔
        (cands = [] ∨ ∀ c ∈ cands,
          (s.entries c).segment = Segment.Probation →
            tickMax ≤ (s.entries c).lastTouch)) ∧
    (∀ (s : SLRUState) (cands : List Nat) (now : Nat),
      SLRU.getVictim s cands now = none ↔
        (cands = [] ∨ ∀ c ∈ cands, tickMax ≤ (s.entries c).lastTouch)) :=
  ⟨getVictimStrict_none_iff, fun s cands now => getVictim_none_iff s cands now⟩

/-- Witness for C7: both variants abort on the empty candidate list. -/
theorem getVictim_abort_iff_witness :
    SLRU.getVictimStrict (SLRU.init 2 4) [] = none ∧
    SLRU.getVictim (SLRU.init 2 4) [] 3 = none :=
  ⟨(getVictim_abort_iff.1 (SLRU.init 2 4) []).2 (Or.inl rfl),
   (getVictim_abort_iff.2 (SLRU.init 2 4) [] 3).2 (Or.inl rfl)⟩

/-! ### C10 — the victim is one of the candidates -/

/-- C10: whenever either `getVictim` variant completes, the returned
victim is an element of the candidate list that was passed in. -/
theorem getVictim_mem_cands :
    (∀ (s : SLRUState) (cands : List Nat) (now v : Nat) (s' : SLRUState),
      SLRU.getVictim s cands now = some (v, s') → v ∈ cands) ∧
    (∀ (s : SLRUState) (cands : List Nat) (v : Nat),
      SLRU.getVictimStrict s cands = some v → v ∈ cands) := by
  constructor
  · intro s cands now v s' h
    by_cases hne : cands = []
    · rw [SLRU.getVictim, if_pos hne] at h
      cases h
    · rcases hsel : (selLoop (fun c => (s.entries c).lastTouch)
          (fun c => (s.entries c).segment = Segment.Probation) cands
          (none, tickMax)).1 with _ | w
      · rcases hsel2 : (selLoop (fun c => (s.entries c).lastTouch)
            (fun c => ¬(s.entries c).segment = Segment.Probation) cands
            (none, tickMax)).1 with _ | q
        · rw [SLRU.getVictim, if_neg hne] at h
          simp only [victimLoop_eq_selLoop, hsel, hsel2] at h
          cases h
        · rw [getVictim_fallback s cands now q hne hsel hsel2] at h
          have hqmem := selLoop_some_mem _ _ cands q hsel2
          by_cases hmem : q ∈ s.protectedList
          · rw [if_pos hmem] at h
            injection h with h
            injection h with h1 h2
            rw [← h1]
            exact hqmem
          · rw [if_neg hmem] at h
            injection h with h
            injection h with h1 h2
            rw [← h1]
            exact hqmem
      · rw [getVictim_prob s cands now w hsel] at h
        injection h with h
        injection h with h1 h2
        rw [← h1]
        exact selLoop_some_mem _ _ cands w hsel
  · intro s cands v h
    by_cases hne : cands = []
    · rw [SLRU.getVictimStrict, if_pos hne] at h
      cases h
    · rw [SLRU.getVictimStrict, if_neg hne, strictLoop_eq_selLoop] at h
      exact selLoop_some_mem _ _ cands v h

/-- Witness for C10: both variants pick the sole fresh candidate. -/
theorem getVictim_mem_cands_witness :
    SLRU.getVictim (SLRU.init 2 4) [7] 3 = some (7, SLRU.init 2 4) ∧
    (7 : Nat) ∈ [7] ∧
    SLRU.getVictimStrict (SLRU.init 2 4) [8] = some 8 ∧
    (8 : Nat) ∈ [8] :=
  ⟨rfl, getVictim_mem_cands.1 (SLRU.init 2 4) [7] 3 7 (SLRU.init 2 4) rfl,
   rfl, getVictim_mem_cands.2 (SLRU.init 2 4) [8] 8 rfl⟩

/-! ### C6 — the two `getVictim` variants -/

/-- C6 counterexample: the candidate list `[0, 1]` contains a probationary
entry (entry 0), yet the two variants do not agree there: the strict one
aborts while the fallback one returns entry 1 — refuting "same victim and
same state changes on every list containing a Probation entry". -/
theorem getVictim_variants_cex :
    (cexA.entries 0).segment = Segment.Probation ∧ 0 ∈ [0, 1] ∧
    SLRU.getVictimStrict cexA [0, 1] = none ∧
    (SLRU.getVictim cexA [0, 1] 9).map (fun p => p.1) = some 1 := by
  refine ⟨rfl, by decide, rfl, by decide⟩

/-- C6 amended: whenever some probationary candidate has `lastTouch` below
`tickMax` the two variants agree (same victim, no state change); on a
non-empty all-`Protected` list with some `lastTouch` below `tickMax` the
strict variant aborts while the fallback variant returns a victim and
demotes it — so the variants are not equivalent. -/
theorem getVictim_variants_inequivalent :
    (∀ (s : SLRUState) (cands : List Nat) (now : Nat),
      (∃ c ∈ cands, (s.entries c).segment = Segment.Probation ∧
        (s.entries c).lastTouch < tickMax) →
      SLRU.getVictim s cands now =
        (SLRU.getVictimStrict s cands).map (fun v => (v, s))) ∧
    (∀ (s : SLRUState) (cands : List Nat) (now : Nat),
      cands ≠ [] →
      (∀ c ∈ cands, (s.entries c).segment = Segment.Protected) →
      (∃ c ∈ cands, (s.entries c).lastTouch < tickMax) →
      SLRU.getVictimStrict s cands = none ∧
      ∃ v s', SLRU.getVictim s cands now = some (v, s') ∧
        (s'.entries v).segment = Segment.Probation) := by
  constructor
  · intro s cands now hex
    obtain ⟨c0, hc0mem, hc0p, hc0lt⟩ := hex
    have hne : cands ≠ [] := by
      rintro rfl
      cases hc0mem
    rcases hsel : (selLoop (fun c => (s.entries c).lastTouch)
        (fun c => (s.entries c).segment = Segment.Probation) cands
        (none, tickMax)).1 with _ | v
    · exfalso
      have := (selLoop_none_iff _ _ cands).1 hsel c0 hc0mem hc0p
      omega
    · rw [getVictim_prob s cands now v hsel,
          SLRU.getVictimStrict, if_neg hne, strictLoop_eq_selLoop, hsel]
      rfl
  · intro s cands now hne hall hex
    obtain ⟨c0, hc0mem, hc0lt⟩ := hex
    have hnotprob : ∀ c ∈ cands, ¬(s.entries c).segment = Segment.Probation := by
      intro c hc hp
      rw [hall c hc] at hp
      cases hp
    have hsel : (selLoop (fun c => (s.entries c).lastTouch)
        (fun c => (s.entries c).segment = Segment.Probation) cands
        (none, tickMax)).1 = none := by
      rw [selLoop_none_iff]
      intro c hc hp
      exact absurd hp (hnotprob c hc)
    refine ⟨?_, ?_⟩
    · rw [getVictimStrict_none_iff]
      refine Or.inr ?_
      intro c hc hp
      exact absurd hp (hnotprob c hc)
    · rcases hsel2 : (selLoop (fun c => (s.entries c).lastTouch)
          (fun c => ¬(s.entries c).segment = Segment.Probation) cands
          (none, tickMax)).1 with _ | q
      · exfalso
        have := (selLoop_none_iff _ _ cands).1 hsel2 c0 hc0mem (hnotprob c0 hc0mem)
        omega
      · have hres := getVictim_fallback s cands now q hne hsel hsel2
        by_cases hmem : q ∈ s.protectedList
        · rw [if_pos hmem] at hres
          refine ⟨q, _, hres, ?_⟩
          dsimp only
          rw [updE_same]
        · rw [if_neg hmem] at hres
          refine ⟨q, _, hres, ?_⟩
          dsimp only
          rw [updE_same]

/-- Witness for C6 on the consistent single-protected-entry state. -/
theorem getVictim_variants_inequivalent_witness :
    ([0] : List Nat) ≠ [] ∧
    (∀ c ∈ [0], (oneProt.entries c).segment = Segment.Protected) ∧
    (∃ c ∈ [0], (oneProt.entries c).lastTouch < tickMax) ∧
    (SLRU.getVictimStrict oneProt [0] = none ∧
     ∃ v s', SLRU.getVictim oneProt [0] 11 = some (v, s') ∧
       (s'.entries v).segment = Segment.Probation) :=
  ⟨by decide, by decide, ⟨0, by decide, by decide⟩,
   getVictim_variants_inequivalent.2 oneProt [0] 11 (by decide) (by decide)
     ⟨0, by decide, by decide⟩⟩

/-! ### C9 — `probation_size` noninterference -/

/-- Entry/tracker observables of a policy state: every field except the
advisory `probationSize`. -/
structure SLRUObs where
  protectedSize : Nat
  protectedEntries : Nat
  protectedList : List Nat
  entries : Nat → SLRUReplData

/-- Project away `probationSize`. -/
def obs (s : SLRUState) : SLRUObs :=
  ⟨s.protectedSize, s.protectedEntries, s.protectedList, s.entries⟩

/-- Replace the stored `probationSize`. -/
def setProb (s : SLRUState) (q : Nat) : SLRUState :=
  { s with probationSize := q }

lemma reset_setProb (s : SLRUState) (q i now : Nat) :
    SLRU.reset (setProb s q) i now = setProb (SLRU.reset s i now) q := by
  rcases s with ⟨a, b, c, d, E⟩
  by_cases h1 : (E i).segment = Segment.Protected
  · by_cases h2 : i ∈ d
    · simp [SLRU.reset, setProb, h1, h2]
    · simp [SLRU.reset, setProb, h1, h2]
  · simp [SLRU.reset, setProb, h1]

lemma invalidate_setProb (s : SLRUState) (q i : Nat) :
    SLRU.invalidate (setProb s q) i = setProb (SLRU.invalidate s i) q := by
  rw [invalidate_eq_reset_zero, invalidate_eq_reset_zero]
  exact reset_setProb s q i 0

lemma touch_setProb (s : SLRUState) (q i now : Nat) :
    SLRU.touch (setProb s q) i now =
      (SLRU.touch s i now).map (fun t => setProb t q) := by
  rcases s with ⟨a, b, c, d, E⟩
  by_cases h1 : (E i).segment = Segment.Probation
  · by_cases h2 : c < a
    · simp [SLRU.touch, setProb, h1, h2]
    · rcases d with _ | ⟨h0, rest⟩
      · simp [SLRU.touch, setProb, h1, h2]
      · simp [SLRU.touch, setProb, h1, h2]
  · simp [SLRU.touch, setProb, h1]

lemma getVictimStrict_setProb (s : SLRUState) (q : Nat) (cands : List Nat) :
    SLRU.getVictimStrict (setProb s q) cands = SLRU.getVictimStrict s cands :=
  rfl

lemma getVictim_setProb (s : SLRUState) (q : Nat) (cands : List Nat)
    (now : Nat) :
    SLRU.getVictim (setProb s q) cands now =
      (SLRU.getVictim s cands now).map (fun p => (p.1, setProb p.2 q)) := by
  by_cases hne : cands = []
  · simp [SLRU.getVictim, hne]
  · have hE : (setProb s q).entries = s.entries := rfl
    rcases hsel : (selLoop (fun c => (s.entries c).lastTouch)
        (fun c => (s.entries c).segment = Segment.Probation) cands
        (none, tickMax)).1 with _ | w
    · rcases hsel2 : (selLoop (fun c => (s.entries c).lastTouch)
          (fun c => ¬(s.entries c).segment = Segment.Probation) cands
          (none, tickMax)).1 with _ | p
      · rw [SLRU.getVictim, SLRU.getVictim, if_neg hne, if_neg hne]
        simp only [victimLoop_eq_selLoop, hE, hsel, hsel2]
        rfl
      · have h1 := getVictim_fallback s cands now p hne hsel hsel2
        have h2 := getVictim_fallback (setProb s q) cands now p hne
          (by rw [hE]; exact hsel) (by rw [hE]; exact hsel2)
        rw [h1, h2]
        rcases s with ⟨a, b, c, d, E⟩
        by_cases hmem : p ∈ d
        · simp [setProb, hmem]
        · simp [setProb, hmem]
    · have h1 := getVictim_prob s cands now w hsel
      have h2 := getVictim_prob (setProb s q) cands now w (by rw [hE]; exact hsel)
      rw [h1, h2]
      rfl

lemma stepOp_setProb (s : SLRUState) (q : Nat) (o : Op) :
    stepOp (setProb s q) o =
      (stepOp s o).map (fun p => (setProb p.1 q, p.2)) := by
  cases o with
  | instantiate => rfl
  | touch i now =>
    simp only [stepOp, touch_setProb]
    cases SLRU.touch s i now <;> rfl
  | reset i now =>
    simp only [stepOp, reset_setProb, Option.map_some']
  | invalidate i =>
    simp only [stepOp, invalidate_setProb, Option.map_some']
  | getVictim cands now =>
    simp only [stepOp, getVictim_setProb]
    cases SLRU.getVictim s cands now <;> rfl

lemma run_setProb (q : Nat) :
    ∀ (ops : List Op) (s : SLRUState),
      run (setProb s q) ops =
        (run s ops).map (fun p => (setProb p.1 q, p.2)) := by
  intro ops
  induction ops with
  | nil => intro s; rfl
  | cons o os ih =>
    intro s
    rw [run, run, stepOp_setProb]
    rcases hs : stepOp s o with _ | p
    · rfl
    · obtain ⟨s1, out⟩ := p
      simp only [Option.map_some']
      rw [ih s1]
      rcases run s1 os with _ | r
      · rfl
      · cases out <;> rfl

/-- C9: two policies constructed with the same `protected_size` but any
two `probation_size` values produce, on every sequence of calls, the same
victims, the same abort behaviour, and the same entry/tracker state —
`probation_size` is stored but never read. -/
theorem probation_size_noninterference (psize q1 q2 : Nat) (ops : List Op) :
    (run (SLRU.init psize q1) ops).map (fun p => (obs p.1, p.2)) =
      (run (SLRU.init psize q2) ops).map (fun p => (obs p.1, p.2)) := by
  have h1 : SLRU.init psize q1 = setProb (SLRU.init psize 0) q1 := rfl
  have h2 : SLRU.init psize q2 = setProb (SLRU.init psize 0) q2 := rfl
  rw [h1, h2, run_setProb, run_setProb]
  cases run (SLRU.init psize 0) ops <;> rfl
